import Mathlib

/-!
Shallow embedding of the Schrödinger-equation RK4 integrator
(`Wavefunction` class of the repository's numerical core).

Modelling conventions:
* Python floats are embedded as rationals (`ℚ`), so all arithmetic
  identities are exact.
* Complex scalars are pairs `(re, im) : ℚ × ℚ` (the code itself splits
  ψ into two real arrays; only `initial` and `boundaries` are complex).
* numpy arrays are Lean lists; a numpy row of length `n` produced by an
  elementwise expression is modelled as `vecOf n f`, the list
  `[f 0, …, f (n-1)]`; reads use `List.getD` with default `0`.
* `np.empty` produces uninitialized memory; it is modelled by explicit
  `junk` parameters so no theorem can silently depend on unwritten cells.
* Fallible operations (out-of-bounds indexing, negative allocation size,
  float division by zero) make the constructor return `none` exactly
  where Python raises.
* Division by zero in `ℚ` is total (`x / 0 = 0`); it is only ever
  exercised where Python would raise, and those paths end in `none`.
-/

/-- `vecOf n f` is the length-`n` list `[f 0, …, f (n-1)]`, the model of a
numpy row built from an elementwise formula. -/
def vecOf (n : ℕ) (f : ℕ → ℚ) : List ℚ :=
  (List.range n).map f

/-- Python 3 `round` on an exact value: nearest integer, ties to even
(banker's rounding), as an exact function on `ℚ`. -/
def pyRound (q : ℚ) : ℤ :=
  let f := q.floor
  let r := q - f
  if r < 1/2 then f
  else if 1/2 < r then f + 1
  else if f % 2 = 0 then f else f + 1

/-- `np.linspace a b n`: `n` evenly spaced samples from `a` to `b`
inclusive.  For `n = 1` numpy returns `[a]`; the formula below also gives
`[a]` there because `ℚ` division by zero is zero. -/
def linspace (a b : ℚ) (n : ℕ) : List ℚ :=
  vecOf n (fun k => a + k * (b - a) / ((n : ℚ) - 1))

/-- `c_to_tup`: given a complex number (modelled as a pair), return the
tuple of its real and imaginary parts. -/
def c_to_tup (x : ℚ × ℚ) : ℚ × ℚ :=
  (x.1, x.2)

/-- State of the `Wavefunction` object: configuration scalars plus the two
`(nt, nx)` field arrays (`real`, `imag`), the coordinate sequences `x`
and `t`, and the pair of complex boundary values. -/
structure Wavefunction where
  dx2 : ℚ
  dt : ℚ
  mu : ℚ
  nx : ℕ
  nt : ℕ
  real : List (List ℚ)
  imag : List (List ℚ)
  x : List ℚ
  t : List ℚ
  boundaries : (ℚ × ℚ) × (ℚ × ℚ)
deriving DecidableEq

instance : Inhabited Wavefunction :=
  ⟨⟨0, 0, 0, 0, 0, [], [], [], [], ((0, 0), (0, 0))⟩⟩

namespace Wavefunction

/-- The buffer contents of `df` after the order-4 / order-2 interior
assignments and the boundary assignments of `deriv`, at index `j`, for an
input of length `n = psi.length`.  Assignments that happen later in the
source overwrite earlier ones, so the branches are tested in reverse
source order.  `junk` models the uninitialized `np.empty_like` cells that
no assignment touches (for `order ∉ {2, 4}` the whole interior). -/
def derivWrites (order : ℕ) (dirichlet : Bool) (psi : List ℚ) (junk : ℕ → ℚ)
    (j : ℕ) : ℚ :=
  let n := psi.length
  let interior : ℕ → ℚ :=
    if order = 2 then
      -- df[1:-1] = psi[2:] - 2*psi[1:-1] + psi[0:-2]
      fun j => if 1 ≤ j ∧ j + 1 < n then
          psi.getD (j+1) 0 - 2 * psi.getD j 0 + psi.getD (j-1) 0
        else junk j
    else if order = 4 then
      -- df[2:-2] = (-psi[:-4] + 16*psi[1:-3] - 30*psi[2:-2] + 16*psi[3:-1] - psi[4:])/12
      -- df[1]  = psi[0] - 2*psi[1] + psi[2]
      -- df[-2] = psi[-1] - 2*psi[-2] + psi[-3]
      fun j =>
        if j = n - 2 then psi.getD (n-1) 0 - 2 * psi.getD (n-2) 0 + psi.getD (n-3) 0
        else if j = 1 then psi.getD 0 0 - 2 * psi.getD 1 0 + psi.getD 2 0
        else if 2 ≤ j ∧ j + 2 < n then
          (-(psi.getD (j-2) 0) + 16 * psi.getD (j-1) 0 - 30 * psi.getD j 0
            + 16 * psi.getD (j+1) 0 - psi.getD (j+2) 0) / 12
        else junk j
    else junk
  if dirichlet then
    -- df[0] = 0; df[-1] = 0
    if j = 0 ∨ j = n - 1 then 0 else interior j
  else
    -- df[0]  = -psi[0]  + 4*psi[1]  - 5*psi[2]  + 2*psi[3]
    -- df[-1] = -psi[-1] + 4*psi[-2] - 5*psi[-3] + 2*psi[-4]
    if j = n - 1 then
      -(psi.getD (n-1) 0) + 4 * psi.getD (n-2) 0 - 5 * psi.getD (n-3) 0
        + 2 * psi.getD (n-4) 0
    else if j = 0 then
      -(psi.getD 0 0) + 4 * psi.getD 1 0 - 5 * psi.getD 2 0 + 2 * psi.getD 3 0
    else interior j

/-- `deriv self psi` with the defaults used by `solve` (`order=4`,
`dirichlet=True`): the discrete second spatial derivative, every
component divided by `dx2` on return.  With this order/boundary
combination every cell of `df` is assigned before the return, so the
uninitialized-buffer function is irrelevant and is fixed to `0`. -/
def deriv (w : Wavefunction) (psi : List ℚ) : List ℚ :=
  vecOf psi.length (fun j => derivWrites 4 true psi (fun _ => 0) j / w.dx2)

/-- `_setbcs self key`: overwrite the two endpoint samples of row `key`
of both field arrays with the configured boundary values (Python index
`-1` is `length - 1`). -/
def setbcs (w : Wavefunction) (key : ℕ) : Wavefunction :=
  let rrow := w.real.getD key []
  let irow := w.imag.getD key []
  { w with
    real := w.real.set key
      ((rrow.set 0 (c_to_tup w.boundaries.1).1).set (rrow.length - 1)
        (c_to_tup w.boundaries.2).1)
    imag := w.imag.set key
      ((irow.set 0 (c_to_tup w.boundaries.1).2).set (irow.length - 1)
        (c_to_tup w.boundaries.2).2) }

/-- A Runge-Kutta stage buffer: a scalar multiple of a `deriv` call,
written as a full-width row (`L` is `nx` in `solve`). -/
def stageRow (w : Wavefunction) (c : ℚ) (arg : List ℚ) (L : ℕ) : List ℚ :=
  vecOf L (fun j => c * (w.deriv arg).getD j 0)

/-- `kreal[0] = -0.5 * deriv(imag[i])`. -/
def kreal0 (w : Wavefunction) (ii : List ℚ) : List ℚ :=
  w.stageRow (-(1/2)) ii ii.length

/-- `kreal[1] = -0.5 * deriv(imag[i] + dt * kreal[0] / 2)`. -/
def kreal1 (w : Wavefunction) (ii : List ℚ) : List ℚ :=
  w.stageRow (-(1/2))
    (vecOf ii.length (fun m => ii.getD m 0 + w.dt * (w.kreal0 ii).getD m 0 / 2))
    ii.length

/-- `kreal[2] = -0.5 * deriv(imag[i] + dt * kreal[1] / 2)`. -/
def kreal2 (w : Wavefunction) (ii : List ℚ) : List ℚ :=
  w.stageRow (-(1/2))
    (vecOf ii.length (fun m => ii.getD m 0 + w.dt * (w.kreal1 ii).getD m 0 / 2))
    ii.length

/-- `kreal[3] = -0.5 * deriv(imag[i] + dt * kreal[2])`. -/
def kreal3 (w : Wavefunction) (ii : List ℚ) : List ℚ :=
  w.stageRow (-(1/2))
    (vecOf ii.length (fun m => ii.getD m 0 + w.dt * (w.kreal2 ii).getD m 0))
    ii.length

/-- `kimag[0] = 0.5 * deriv(real[i])`. -/
def kimag0 (w : Wavefunction) (ri : List ℚ) : List ℚ :=
  w.stageRow (1/2) ri ri.length

/-- `kimag[1] = 0.5 * deriv(real[i] + dt * kimag[0] / 2)`. -/
def kimag1 (w : Wavefunction) (ri : List ℚ) : List ℚ :=
  w.stageRow (1/2)
    (vecOf ri.length (fun m => ri.getD m 0 + w.dt * (w.kimag0 ri).getD m 0 / 2))
    ri.length

/-- `kimag[2] = 0.5 * deriv(real[i] + dt * kimag[1] / 2)`. -/
def kimag2 (w : Wavefunction) (ri : List ℚ) : List ℚ :=
  w.stageRow (1/2)
    (vecOf ri.length (fun m => ri.getD m 0 + w.dt * (w.kimag1 ri).getD m 0 / 2))
    ri.length

/-- `kimag[3] = 0.5 * deriv(real[i] + dt * kimag[2])`. -/
def kimag3 (w : Wavefunction) (ri : List ℚ) : List ℚ :=
  w.stageRow (1/2)
    (vecOf ri.length (fun m => ri.getD m 0 + w.dt * (w.kimag2 ri).getD m 0))
    ri.length

/-- `real[i] + dt * ((1/6)*kreal[0] + (1/3)*kreal[1] + (1/3)*kreal[2] + (1/6)*kreal[3])`,
the new real row written by one loop iteration of `solve`. -/
def rk4rowReal (w : Wavefunction) (ri ii : List ℚ) : List ℚ :=
  vecOf ri.length (fun j =>
    ri.getD j 0 + w.dt *
      ((1/6) * (w.kreal0 ii).getD j 0 + (1/3) * (w.kreal1 ii).getD j 0
        + (1/3) * (w.kreal2 ii).getD j 0 + (1/6) * (w.kreal3 ii).getD j 0))

/-- `imag[i] + dt * ((1/6)*kimag[0] + (1/3)*kimag[1] + (1/3)*kimag[2] + (1/6)*kimag[3])`. -/
def rk4rowImag (w : Wavefunction) (ri ii : List ℚ) : List ℚ :=
  vecOf ii.length (fun j =>
    ii.getD j 0 + w.dt *
      ((1/6) * (w.kimag0 ri).getD j 0 + (1/3) * (w.kimag1 ri).getD j 0
        + (1/3) * (w.kimag2 ri).getD j 0 + (1/6) * (w.kimag3 ri).getD j 0))

/-- The RK4 update of one loop iteration of `solve`: write row `i+1` of
both field arrays from row `i`.  Boundary re-enforcement is *not* part of
this operation. -/
def rk4update (w : Wavefunction) (i : ℕ) : Wavefunction :=
  { w with
    real := w.real.set (i+1) (w.rk4rowReal (w.real.getD i []) (w.imag.getD i []))
    imag := w.imag.set (i+1) (w.rk4rowImag (w.real.getD i []) (w.imag.getD i [])) }

/-- One full iteration of the `solve` loop at index `i`: the RK4 update
writing row `i+1`, followed by `self._setbcs(i)` — applied to the
*current* row `i`, exactly as in the source. -/
def step (w : Wavefunction) (i : ℕ) : Wavefunction :=
  (w.rk4update i).setbcs i

/-- The first `m` iterations of the `solve` loop. -/
def solveUpTo (w : Wavefunction) (m : ℕ) : Wavefunction :=
  (List.range m).foldl step w

/-- `solve self`: `for i in range(0, nt - 1): …`. -/
def solve (w : Wavefunction) : Wavefunction :=
  w.solveUpTo (w.nt - 1)

/-- `prob self i = real[i] ** 2 + imag[i] ** 2` (elementwise, a fresh
row of width `nx`). -/
def prob (w : Wavefunction) (i : ℕ) : List ℚ :=
  vecOf w.nx (fun j =>
    ((w.real.getD i []).getD j 0) ^ 2 + ((w.imag.getD i []).getD j 0) ^ 2)

/-- The body of `deriv` for an arbitrary `order`/`dirichlet`
combination, modelled as explicit state: the pair of the returned
`df / dx2` buffer and the input array as it stands when the function
returns.  Every assignment in the source writes into the fresh
`np.empty_like` buffer `df`; no statement assigns into `psi`. -/
def derivRun (w : Wavefunction) (order : ℕ) (dirichlet : Bool)
    (junk : ℕ → ℚ) (psi : List ℚ) : List ℚ × List ℚ :=
  (vecOf psi.length (fun j => derivWrites order dirichlet psi junk j / w.dx2), psi)

/-- The spec recurrence, stage 0: `k_real[0] = -0.5 * D(imag[i])`
(written from the spec text, for comparison with the code's stages). -/
def specKreal0 (w : Wavefunction) (ii : List ℚ) : List ℚ :=
  vecOf ii.length (fun j => -(1/2) * (w.deriv ii).getD j 0)

/-- Spec stage 1: `k_real[1] = -0.5 * D(imag[i] + dt/2 * k_real[0])`. -/
def specKreal1 (w : Wavefunction) (ii : List ℚ) : List ℚ :=
  vecOf ii.length (fun j => -(1/2) *
    (w.deriv (vecOf ii.length
      (fun m => ii.getD m 0 + w.dt / 2 * (w.specKreal0 ii).getD m 0))).getD j 0)

/-- Spec stage 2: `k_real[2] = -0.5 * D(imag[i] + dt/2 * k_real[1])`. -/
def specKreal2 (w : Wavefunction) (ii : List ℚ) : List ℚ :=
  vecOf ii.length (fun j => -(1/2) *
    (w.deriv (vecOf ii.length
      (fun m => ii.getD m 0 + w.dt / 2 * (w.specKreal1 ii).getD m 0))).getD j 0)

/-- Spec stage 3: `k_real[3] = -0.5 * D(imag[i] + dt * k_real[2])`. -/
def specKreal3 (w : Wavefunction) (ii : List ℚ) : List ℚ :=
  vecOf ii.length (fun j => -(1/2) *
    (w.deriv (vecOf ii.length
      (fun m => ii.getD m 0 + w.dt * (w.specKreal2 ii).getD m 0))).getD j 0)

/-- Spec stage 0 (imaginary branch): `k_imag[0] = 0.5 * D(real[i])`. -/
def specKimag0 (w : Wavefunction) (ri : List ℚ) : List ℚ :=
  vecOf ri.length (fun j => (1/2) * (w.deriv ri).getD j 0)

/-- Spec stage 1 (imaginary branch). -/
def specKimag1 (w : Wavefunction) (ri : List ℚ) : List ℚ :=
  vecOf ri.length (fun j => (1/2) *
    (w.deriv (vecOf ri.length
      (fun m => ri.getD m 0 + w.dt / 2 * (w.specKimag0 ri).getD m 0))).getD j 0)

/-- Spec stage 2 (imaginary branch). -/
def specKimag2 (w : Wavefunction) (ri : List ℚ) : List ℚ :=
  vecOf ri.length (fun j => (1/2) *
    (w.deriv (vecOf ri.length
      (fun m => ri.getD m 0 + w.dt / 2 * (w.specKimag1 ri).getD m 0))).getD j 0)

/-- Spec stage 3 (imaginary branch). -/
def specKimag3 (w : Wavefunction) (ri : List ℚ) : List ℚ :=
  vecOf ri.length (fun j => (1/2) *
    (w.deriv (vecOf ri.length
      (fun m => ri.getD m 0 + w.dt * (w.specKimag2 ri).getD m 0))).getD j 0)

/-- The spec update row:
`real[i+1] = real[i] + dt * (k_real[0] + 2 k_real[1] + 2 k_real[2] + k_real[3]) / 6`. -/
def specRowReal (w : Wavefunction) (ri ii : List ℚ) : List ℚ :=
  vecOf ri.length (fun j => ri.getD j 0 + w.dt *
    ((w.specKreal0 ii).getD j 0 + 2 * (w.specKreal1 ii).getD j 0 +
      2 * (w.specKreal2 ii).getD j 0 + (w.specKreal3 ii).getD j 0) / 6)

/-- The spec update row for the imaginary part. -/
def specRowImag (w : Wavefunction) (ri ii : List ℚ) : List ℚ :=
  vecOf ii.length (fun j => ii.getD j 0 + w.dt *
    ((w.specKimag0 ri).getD j 0 + 2 * (w.specKimag1 ri).getD j 0 +
      2 * (w.specKimag2 ri).getD j 0 + (w.specKimag3 ri).getD j 0) / 6)

end Wavefunction


/-- The spatial point count `int(round((xrange[1] - xrange[0]) / dx))`. -/
def nxCount (dx : ℚ) (xrange : ℚ × ℚ) : ℤ :=
  pyRound ((xrange.2 - xrange.1) / dx)

/-- The time step count `int(round((trange[1] - trange[0]) / dt))`. -/
def ntCount (dt : ℚ) (trange : ℚ × ℚ) : ℤ :=
  pyRound ((trange.2 - trange.1) / dt)

/-- `Wavefunction.__init__`.  `junkR i j` / `junkI i j` model the
uninitialized cells of the two `np.empty([nt, nx])` allocations.
`initial` maps a coordinate to a complex sample `(re, im)`.

The constructor performs no validation of `dx`, `dt`, `xrange`, `trange`;
`none` is returned exactly on the paths where the Python raises:
* a negative derived count makes `np.empty` raise `ValueError`;
* `nt = 0` makes the row-0 write `self.real[0] = …` raise `IndexError`;
* `nx = 0` makes `self._setbcs(0)` raise `IndexError`
(`dx = 0` or `dt = 0` raise `ZeroDivisionError` in Python; in `ℚ` the
quotient is `0`, so those runs also land in a `none` branch).

Note the source's time-axis slip, reproduced faithfully: `self.t` is
built from `xrange`, not `trange`. -/
def mkWavefunction (junkR junkI : ℕ → ℕ → ℚ) (initial : ℚ → ℚ × ℚ)
    (dx dt : ℚ) (xrange trange : ℚ × ℚ)
    (boundaries : (ℚ × ℚ) × (ℚ × ℚ)) : Option Wavefunction :=
  let nxZ := nxCount dx xrange
  let ntZ := ntCount dt trange
  if ntZ < 0 ∨ nxZ < 0 then none
  else
    let nx := nxZ.toNat
    let nt := ntZ.toNat
    if nt = 0 then none
    else if nx = 0 then none
    else
      let x := linspace xrange.1 xrange.2 nx
      let t := linspace xrange.1 xrange.2 nt
      let init := x.map initial
      let real0 := ((List.range nt).map (fun i => vecOf nx (junkR i))).set 0
        (init.map Prod.fst)
      let imag0 := ((List.range nt).map (fun i => vecOf nx (junkI i))).set 0
        (init.map Prod.snd)
      some (Wavefunction.setbcs
        ⟨dx ^ 2, dt, dt / (2 * dx ^ 2), nx, nt, real0, imag0, x, t, boundaries⟩ 0)

/-! ### Concrete fixtures used by the witnesses -/

/-- A small concrete state: `nx = 3`, `nt = 2`, `dx2 = 1`, `dt = 1`,
boundary values `(5+6j, 7+8j)`. -/
def wStep : Wavefunction :=
  ⟨1, 1, 0, 3, 2, [[1, 2, 3], [0, 0, 0]], [[0, 1, 0], [0, 0, 0]], [0, 1/2, 1],
    [0, 1], ((5, 6), (7, 8))⟩

/-- The state built by the constructor for
`dx = 1/4`, `dt = 1/2`, ranges `(0,1)`, boundaries `(1+0j, 0+0j)`
(so `nx = 4`, `nt = 2`). -/
def wC1 : Wavefunction :=
  (mkWavefunction (fun _ _ => 7) (fun _ _ => 7) (fun q => (q, 0)) (1/4) (1/2)
    (0, 1) (0, 1) ((1, 0), (0, 0))).getD default

/-- The state built by the constructor at the default spatial
configuration `dx = 1/50`, `xrange = (0,1)` (and `dt = 1/2` to keep the
time axis small), so `nx = 50`. -/
def wC10 : Wavefunction :=
  (mkWavefunction (fun _ _ => 0) (fun _ _ => 0) (fun q => (q, 0)) (1/50) (1/2)
    (0, 1) (0, 1) ((0, 0), (0, 0))).getD default

@[simp] theorem vecOf_length (n : ℕ) (f : ℕ → ℚ) : (vecOf n f).length = n := by
  simp [vecOf]

theorem vecOf_getD (n : ℕ) (f : ℕ → ℚ) (j : ℕ) (d : ℚ) (h : j < n) :
    (vecOf n f).getD j d = f j := by
  simp [vecOf, List.getD_eq_getElem?_getD, List.getElem?_map, List.getElem?_range h]

theorem vecOf_getD_ge (n : ℕ) (f : ℕ → ℚ) (j : ℕ) (d : ℚ) (h : n ≤ j) :
    (vecOf n f).getD j d = d := by
  have hnone : ((List.range n).map f)[j]? = none :=
    List.getElem?_eq_none (by simpa using h)
  simp [vecOf, List.getD_eq_getElem?_getD, hnone]

theorem vecOf_congr {n : ℕ} {f g : ℕ → ℚ} (h : ∀ j, j < n → f j = g j) :
    vecOf n f = vecOf n g := by
  unfold vecOf
  apply List.map_congr_left
  intro a ha
  exact h a (List.mem_range.mp ha)

/-! ### Basic list-access lemmas -/

theorem getD_set_ne {α : Type} {l : List α} {i j : ℕ} (a : α) (d : α) (h : i ≠ j) :
    (l.set i a).getD j d = l.getD j d := by
  simp [List.getD_eq_getElem?_getD, List.getElem?_set_ne h]

theorem getD_set_self {α : Type} {l : List α} {i : ℕ} (a : α) (d : α)
    (h : i < l.length) :
    (l.set i a).getD i d = a := by
  simp [List.getD_eq_getElem?_getD, List.getElem?_set_eq_of_lt a h]

namespace Wavefunction

/-! ### Properties of `deriv` -/

@[simp] theorem deriv_length (w : Wavefunction) (psi : List ℚ) :
    (w.deriv psi).length = psi.length := by
  simp [deriv]

/-- Under the Dirichlet default the derivative is forced to `0` at the
left endpoint. -/
theorem deriv_getD_zero (w : Wavefunction) (psi : List ℚ) :
    (w.deriv psi).getD 0 0 = 0 := by
  rcases Nat.eq_zero_or_pos psi.length with h | h
  · exact vecOf_getD_ge _ _ _ _ (le_of_eq h)
  · rw [deriv, vecOf_getD _ _ _ _ h, derivWrites]
    simp

/-- Under the Dirichlet default the derivative is forced to `0` at the
right endpoint. -/
theorem deriv_getD_last (w : Wavefunction) (psi : List ℚ) {n : ℕ}
    (h : psi.length = n) :
    (w.deriv psi).getD (n - 1) 0 = 0 := by
  subst h
  rcases Nat.eq_zero_or_pos psi.length with h | h
  · exact vecOf_getD_ge _ _ _ _ (by omega)
  · rw [deriv, vecOf_getD _ _ _ _ (by omega), derivWrites]
    simp

/-! ### Properties of the stage buffers -/

@[simp] theorem stageRow_length (w : Wavefunction) (c : ℚ) (arg : List ℚ) (L : ℕ) :
    (w.stageRow c arg L).length = L := by
  simp [stageRow]

theorem stageRow_getD_zero (w : Wavefunction) (c : ℚ) (arg : List ℚ) (L : ℕ) :
    (w.stageRow c arg L).getD 0 0 = 0 := by
  rcases Nat.eq_zero_or_pos L with h | h
  · exact vecOf_getD_ge _ _ _ _ (le_of_eq h)
  · rw [stageRow, vecOf_getD _ _ _ _ h, deriv_getD_zero, mul_zero]

theorem stageRow_getD_last (w : Wavefunction) (c : ℚ) (arg : List ℚ) (L : ℕ)
    (h : arg.length = L) :
    (w.stageRow c arg L).getD (L - 1) 0 = 0 := by
  rcases Nat.eq_zero_or_pos L with h0 | h0
  · exact vecOf_getD_ge _ _ _ _ (by omega)
  · rw [stageRow, vecOf_getD _ _ _ _ (by omega), deriv_getD_last w arg h, mul_zero]

@[simp] theorem kreal0_length (w : Wavefunction) (ii : List ℚ) :
    (w.kreal0 ii).length = ii.length := by simp [kreal0]
@[simp] theorem kreal1_length (w : Wavefunction) (ii : List ℚ) :
    (w.kreal1 ii).length = ii.length := by simp [kreal1]
@[simp] theorem kreal2_length (w : Wavefunction) (ii : List ℚ) :
    (w.kreal2 ii).length = ii.length := by simp [kreal2]
@[simp] theorem kreal3_length (w : Wavefunction) (ii : List ℚ) :
    (w.kreal3 ii).length = ii.length := by simp [kreal3]
@[simp] theorem kimag0_length (w : Wavefunction) (ri : List ℚ) :
    (w.kimag0 ri).length = ri.length := by simp [kimag0]
@[simp] theorem kimag1_length (w : Wavefunction) (ri : List ℚ) :
    (w.kimag1 ri).length = ri.length := by simp [kimag1]
@[simp] theorem kimag2_length (w : Wavefunction) (ri : List ℚ) :
    (w.kimag2 ri).length = ri.length := by simp [kimag2]
@[simp] theorem kimag3_length (w : Wavefunction) (ri : List ℚ) :
    (w.kimag3 ri).length = ri.length := by simp [kimag3]

/-- Every Runge-Kutta stage vanishes at the left endpoint (the Dirichlet
derivative is `0` there, and each stage is a multiple of a `deriv`). -/
theorem kstages_getD_zero (w : Wavefunction) (ri ii : List ℚ) :
    (w.kreal0 ii).getD 0 0 = 0 ∧ (w.kreal1 ii).getD 0 0 = 0 ∧
    (w.kreal2 ii).getD 0 0 = 0 ∧ (w.kreal3 ii).getD 0 0 = 0 ∧
    (w.kimag0 ri).getD 0 0 = 0 ∧ (w.kimag1 ri).getD 0 0 = 0 ∧
    (w.kimag2 ri).getD 0 0 = 0 ∧ (w.kimag3 ri).getD 0 0 = 0 := by
  refine ⟨?_, ?_, ?_, ?_, ?_, ?_, ?_, ?_⟩ <;>
    simp only [kreal0, kreal1, kreal2, kreal3, kimag0, kimag1, kimag2, kimag3] <;>
    exact stageRow_getD_zero _ _ _ _

/-- Every Runge-Kutta stage vanishes at the right endpoint. -/
theorem kstages_getD_last (w : Wavefunction) (ri ii : List ℚ) {n : ℕ}
    (hr : ri.length = n) (hi : ii.length = n) :
    (w.kreal0 ii).getD (n - 1) 0 = 0 ∧ (w.kreal1 ii).getD (n - 1) 0 = 0 ∧
    (w.kreal2 ii).getD (n - 1) 0 = 0 ∧ (w.kreal3 ii).getD (n - 1) 0 = 0 ∧
    (w.kimag0 ri).getD (n - 1) 0 = 0 ∧ (w.kimag1 ri).getD (n - 1) 0 = 0 ∧
    (w.kimag2 ri).getD (n - 1) 0 = 0 ∧ (w.kimag3 ri).getD (n - 1) 0 = 0 := by
  refine ⟨?_, ?_, ?_, ?_, ?_, ?_, ?_, ?_⟩
  · rw [kreal0, hi]; exact stageRow_getD_last _ _ _ _ hi
  · rw [kreal1, hi]; exact stageRow_getD_last _ _ _ _ (by simp)
  · rw [kreal2, hi]; exact stageRow_getD_last _ _ _ _ (by simp)
  · rw [kreal3, hi]; exact stageRow_getD_last _ _ _ _ (by simp)
  · rw [kimag0, hr]; exact stageRow_getD_last _ _ _ _ hr
  · rw [kimag1, hr]; exact stageRow_getD_last _ _ _ _ (by simp)
  · rw [kimag2, hr]; exact stageRow_getD_last _ _ _ _ (by simp)
  · rw [kimag3, hr]; exact stageRow_getD_last _ _ _ _ (by simp)

@[simp] theorem rk4rowReal_length (w : Wavefunction) (ri ii : List ℚ) :
    (w.rk4rowReal ri ii).length = ri.length := by simp [rk4rowReal]

@[simp] theorem rk4rowImag_length (w : Wavefunction) (ri ii : List ℚ) :
    (w.rk4rowImag ri ii).length = ii.length := by simp [rk4rowImag]

/-- The RK4-updated real row agrees with the previous real row at the
left endpoint: all stage contributions vanish there. -/
theorem rk4rowReal_getD_zero (w : Wavefunction) (ri ii : List ℚ) :
    (w.rk4rowReal ri ii).getD 0 0 = ri.getD 0 0 := by
  rcases Nat.eq_zero_or_pos ri.length with h | h
  · have : ri = [] := List.length_eq_zero.mp h
    simp [rk4rowReal, vecOf, this]
  · obtain ⟨h0, h1, h2, h3, -, -, -, -⟩ := w.kstages_getD_zero ri ii
    rw [rk4rowReal, vecOf_getD _ _ _ _ h, h0, h1, h2, h3]
    ring

/-- The RK4-updated imaginary row agrees with the previous imaginary row
at the left endpoint. -/
theorem rk4rowImag_getD_zero (w : Wavefunction) (ri ii : List ℚ) :
    (w.rk4rowImag ri ii).getD 0 0 = ii.getD 0 0 := by
  rcases Nat.eq_zero_or_pos ii.length with h | h
  · have : ii = [] := List.length_eq_zero.mp h
    simp [rk4rowImag, vecOf, this]
  · obtain ⟨-, -, -, -, h0, h1, h2, h3⟩ := w.kstages_getD_zero ri ii
    rw [rk4rowImag, vecOf_getD _ _ _ _ h, h0, h1, h2, h3]
    ring

/-- The RK4-updated real row agrees with the previous real row at the
right endpoint. -/
theorem rk4rowReal_getD_last (w : Wavefunction) (ri ii : List ℚ) {n : ℕ}
    (hr : ri.length = n) (hi : ii.length = n) :
    (w.rk4rowReal ri ii).getD (n - 1) 0 = ri.getD (n - 1) 0 := by
  rcases Nat.eq_zero_or_pos n with h | h
  · subst h
    have : ri = [] := List.length_eq_zero.mp hr
    simp [rk4rowReal, vecOf, this]
  · obtain ⟨h0, h1, h2, h3, -, -, -, -⟩ := w.kstages_getD_last ri ii hr hi
    rw [rk4rowReal, vecOf_getD _ _ _ _ (by omega), h0, h1, h2, h3]
    ring

/-- The RK4-updated imaginary row agrees with the previous imaginary row
at the right endpoint. -/
theorem rk4rowImag_getD_last (w : Wavefunction) (ri ii : List ℚ) {n : ℕ}
    (hr : ri.length = n) (hi : ii.length = n) :
    (w.rk4rowImag ri ii).getD (n - 1) 0 = ii.getD (n - 1) 0 := by
  rcases Nat.eq_zero_or_pos n with h | h
  · subst h
    have : ii = [] := List.length_eq_zero.mp hi
    simp [rk4rowImag, vecOf, this]
  · obtain ⟨-, -, -, -, h0, h1, h2, h3⟩ := w.kstages_getD_last ri ii hr hi
    rw [rk4rowImag, vecOf_getD _ _ _ _ (by omega), h0, h1, h2, h3]
    ring


/-! ### Field preservation and frame lemmas -/

@[simp] theorem setbcs_nt (w : Wavefunction) (k : ℕ) : (w.setbcs k).nt = w.nt := rfl
@[simp] theorem setbcs_nx (w : Wavefunction) (k : ℕ) : (w.setbcs k).nx = w.nx := rfl
@[simp] theorem setbcs_dt (w : Wavefunction) (k : ℕ) : (w.setbcs k).dt = w.dt := rfl
@[simp] theorem setbcs_dx2 (w : Wavefunction) (k : ℕ) : (w.setbcs k).dx2 = w.dx2 := rfl
@[simp] theorem setbcs_x (w : Wavefunction) (k : ℕ) : (w.setbcs k).x = w.x := rfl
@[simp] theorem setbcs_t (w : Wavefunction) (k : ℕ) : (w.setbcs k).t = w.t := rfl
@[simp] theorem setbcs_boundaries (w : Wavefunction) (k : ℕ) :
    (w.setbcs k).boundaries = w.boundaries := rfl

@[simp] theorem rk4update_nt (w : Wavefunction) (i : ℕ) : (w.rk4update i).nt = w.nt := rfl
@[simp] theorem rk4update_nx (w : Wavefunction) (i : ℕ) : (w.rk4update i).nx = w.nx := rfl
@[simp] theorem rk4update_dt (w : Wavefunction) (i : ℕ) : (w.rk4update i).dt = w.dt := rfl
@[simp] theorem rk4update_dx2 (w : Wavefunction) (i : ℕ) :
    (w.rk4update i).dx2 = w.dx2 := rfl
@[simp] theorem rk4update_boundaries (w : Wavefunction) (i : ℕ) :
    (w.rk4update i).boundaries = w.boundaries := rfl

@[simp] theorem step_nt (w : Wavefunction) (i : ℕ) : (w.step i).nt = w.nt := rfl
@[simp] theorem step_nx (w : Wavefunction) (i : ℕ) : (w.step i).nx = w.nx := rfl
@[simp] theorem step_dt (w : Wavefunction) (i : ℕ) : (w.step i).dt = w.dt := rfl
@[simp] theorem step_dx2 (w : Wavefunction) (i : ℕ) : (w.step i).dx2 = w.dx2 := rfl
@[simp] theorem step_boundaries (w : Wavefunction) (i : ℕ) :
    (w.step i).boundaries = w.boundaries := rfl

@[simp] theorem setbcs_real_length (w : Wavefunction) (k : ℕ) :
    (w.setbcs k).real.length = w.real.length := by simp [setbcs]
@[simp] theorem setbcs_imag_length (w : Wavefunction) (k : ℕ) :
    (w.setbcs k).imag.length = w.imag.length := by simp [setbcs]
@[simp] theorem rk4update_real_length (w : Wavefunction) (i : ℕ) :
    (w.rk4update i).real.length = w.real.length := by simp [rk4update]
@[simp] theorem rk4update_imag_length (w : Wavefunction) (i : ℕ) :
    (w.rk4update i).imag.length = w.imag.length := by simp [rk4update]
@[simp] theorem step_real_length (w : Wavefunction) (i : ℕ) :
    (w.step i).real.length = w.real.length := by simp [step]
@[simp] theorem step_imag_length (w : Wavefunction) (i : ℕ) :
    (w.step i).imag.length = w.imag.length := by simp [step]

/-- `_setbcs` leaves every row other than `key` untouched. -/
theorem setbcs_getD_ne (w : Wavefunction) (k j : ℕ) (h : j ≠ k) :
    (w.setbcs k).real.getD j [] = w.real.getD j [] ∧
    (w.setbcs k).imag.getD j [] = w.imag.getD j [] :=
  ⟨getD_set_ne _ _ (Ne.symm h), getD_set_ne _ _ (Ne.symm h)⟩

/-- The row `key` after `_setbcs`: the previous row with its two endpoint
cells overwritten by the boundary values. -/
theorem setbcs_getD_self_real (w : Wavefunction) (k : ℕ) (h : k < w.real.length) :
    (w.setbcs k).real.getD k [] =
      ((w.real.getD k []).set 0 w.boundaries.1.1).set
        ((w.real.getD k []).length - 1) w.boundaries.2.1 :=
  getD_set_self _ _ h

theorem setbcs_getD_self_imag (w : Wavefunction) (k : ℕ) (h : k < w.imag.length) :
    (w.setbcs k).imag.getD k [] =
      ((w.imag.getD k []).set 0 w.boundaries.1.2).set
        ((w.imag.getD k []).length - 1) w.boundaries.2.2 :=
  getD_set_self _ _ h

/-- Endpoint cells of a row after its two boundary writes. -/
theorem set_endpoints_getD (row : List ℚ) (a b : ℚ) (h2 : 2 ≤ row.length) :
    ((row.set 0 a).set (row.length - 1) b).getD 0 0 = a ∧
    ((row.set 0 a).set (row.length - 1) b).getD (row.length - 1) 0 = b := by
  constructor
  · rw [getD_set_ne _ _ (by omega)]
    exact getD_set_self _ _ (by omega)
  · exact getD_set_self _ _ (by simp; omega)

/-- The RK4 update leaves every row other than `i+1` untouched. -/
theorem rk4update_getD_ne (w : Wavefunction) (i j : ℕ) (h : j ≠ i + 1) :
    (w.rk4update i).real.getD j [] = w.real.getD j [] ∧
    (w.rk4update i).imag.getD j [] = w.imag.getD j [] :=
  ⟨getD_set_ne _ _ (Ne.symm h), getD_set_ne _ _ (Ne.symm h)⟩

/-- The RK4 update writes the two freshly computed rows at index `i+1`. -/
theorem rk4update_getD_self (w : Wavefunction) (i : ℕ)
    (hr : i + 1 < w.real.length) (hi : i + 1 < w.imag.length) :
    (w.rk4update i).real.getD (i+1) [] =
      w.rk4rowReal (w.real.getD i []) (w.imag.getD i []) ∧
    (w.rk4update i).imag.getD (i+1) [] =
      w.rk4rowImag (w.real.getD i []) (w.imag.getD i []) :=
  ⟨getD_set_self _ _ hr, getD_set_self _ _ hi⟩

@[simp] theorem solveUpTo_zero (w : Wavefunction) : w.solveUpTo 0 = w := rfl

theorem solveUpTo_succ (w : Wavefunction) (m : ℕ) :
    w.solveUpTo (m + 1) = (w.solveUpTo m).step m := by
  simp [solveUpTo, List.range_succ]

@[simp] theorem solveUpTo_nt (w : Wavefunction) (m : ℕ) :
    (w.solveUpTo m).nt = w.nt := by
  induction m with
  | zero => rfl
  | succ m ih => rw [solveUpTo_succ, step_nt, ih]

@[simp] theorem solveUpTo_nx (w : Wavefunction) (m : ℕ) :
    (w.solveUpTo m).nx = w.nx := by
  induction m with
  | zero => rfl
  | succ m ih => rw [solveUpTo_succ, step_nx, ih]

@[simp] theorem solveUpTo_boundaries (w : Wavefunction) (m : ℕ) :
    (w.solveUpTo m).boundaries = w.boundaries := by
  induction m with
  | zero => rfl
  | succ m ih => rw [solveUpTo_succ, step_boundaries, ih]

@[simp] theorem solveUpTo_real_length (w : Wavefunction) (m : ℕ) :
    (w.solveUpTo m).real.length = w.real.length := by
  induction m with
  | zero => rfl
  | succ m ih => rw [solveUpTo_succ, step_real_length, ih]

@[simp] theorem solveUpTo_imag_length (w : Wavefunction) (m : ℕ) :
    (w.solveUpTo m).imag.length = w.imag.length := by
  induction m with
  | zero => rfl
  | succ m ih => rw [solveUpTo_succ, step_imag_length, ih]


/-! ### The solve-loop boundary invariant -/

/-- Running the first `m` iterations of the `solve` loop preserves all row
lengths and keeps every row up to index `m` pinned to the boundary values
at both endpoints.  Row `i+1`, freshly written by iteration `i`, inherits
its endpoints from row `i` (the Dirichlet derivative vanishes there), and
`_setbcs i` then rewrites row `i` exactly. -/
theorem solveUpTo_invariant (w : Wavefunction)
    (hrl : w.real.length = w.nt) (hil : w.imag.length = w.nt)
    (hrows : ∀ i, i < w.nt →
      (w.real.getD i []).length = w.nx ∧ (w.imag.getD i []).length = w.nx)
    (hnx : 2 ≤ w.nx)
    (hb0r : (w.real.getD 0 []).getD 0 0 = w.boundaries.1.1)
    (hb0i : (w.imag.getD 0 []).getD 0 0 = w.boundaries.1.2)
    (hb1r : (w.real.getD 0 []).getD (w.nx - 1) 0 = w.boundaries.2.1)
    (hb1i : (w.imag.getD 0 []).getD (w.nx - 1) 0 = w.boundaries.2.2)
    (m : ℕ) (hm : m ≤ w.nt - 1) :
    (∀ i, i < w.nt →
      ((w.solveUpTo m).real.getD i []).length = w.nx ∧
      ((w.solveUpTo m).imag.getD i []).length = w.nx) ∧
    (∀ i, i ≤ m → i < w.nt →
      ((w.solveUpTo m).real.getD i []).getD 0 0 = w.boundaries.1.1 ∧
      ((w.solveUpTo m).imag.getD i []).getD 0 0 = w.boundaries.1.2 ∧
      ((w.solveUpTo m).real.getD i []).getD (w.nx - 1) 0 = w.boundaries.2.1 ∧
      ((w.solveUpTo m).imag.getD i []).getD (w.nx - 1) 0 = w.boundaries.2.2) := by
  induction m with
  | zero =>
    refine ⟨fun i hi => hrows i hi, fun i hi0 hint => ?_⟩
    interval_cases i
    exact ⟨hb0r, hb0i, hb1r, hb1i⟩
  | succ m ih =>
    have hm' : m ≤ w.nt - 1 := by omega
    have hmnt : m + 1 < w.nt := by omega
    obtain ⟨ihlen, ihbc⟩ := ih hm'
    set u := w.solveUpTo m with hu
    have hunx : u.nx = w.nx := by simp [hu]
    have hub : u.boundaries = w.boundaries := by simp [hu]
    have hurl : u.real.length = w.nt := by simp [hu, hrl]
    have huil : u.imag.length = w.nt := by simp [hu, hil]
    have hs : w.solveUpTo (m + 1) = (u.rk4update m).setbcs m := by
      rw [solveUpTo_succ]; rfl
    set v := u.rk4update m with hv
    have hvrl : v.real.length = w.nt := by simp [hv, hurl]
    have hvil : v.imag.length = w.nt := by simp [hv, huil]
    -- the freshly written rows at index m+1
    have hrow1r : v.real.getD (m+1) [] =
        u.rk4rowReal (u.real.getD m []) (u.imag.getD m []) :=
      (u.rk4update_getD_self m (by omega) (by omega)).1
    have hrow1i : v.imag.getD (m+1) [] =
        u.rk4rowImag (u.real.getD m []) (u.imag.getD m []) :=
      (u.rk4update_getD_self m (by omega) (by omega)).2
    have hlen_m : (u.real.getD m []).length = w.nx ∧ (u.imag.getD m []).length = w.nx :=
      ihlen m (by omega)
    -- length bookkeeping for the step result
    have hvlen : ∀ i, i < w.nt →
        (v.real.getD i []).length = w.nx ∧ (v.imag.getD i []).length = w.nx := by
      intro i hi
      by_cases hcase : i = m + 1
      · subst hcase
        rw [hrow1r, hrow1i, u.rk4rowReal_length, u.rk4rowImag_length]
        exact hlen_m
      · obtain ⟨h1, h2⟩ := u.rk4update_getD_ne m i hcase
        rw [← hv] at h1 h2
        rw [h1, h2]
        exact ihlen i hi
    -- row m of v is still row m of u
    have hvm_r : v.real.getD m [] = u.real.getD m [] :=
      (u.rk4update_getD_ne m m (by omega)).1
    have hvm_i : v.imag.getD m [] = u.imag.getD m [] :=
      (u.rk4update_getD_ne m m (by omega)).2
    have hvb : v.boundaries = w.boundaries := by simp [hv, hub]
    constructor
    · -- lengths after the full step
      intro i hi
      rw [hs]
      by_cases hcase : i = m
      · rw [hcase, (v.setbcs_getD_self_real m (by omega)),
          (v.setbcs_getD_self_imag m (by omega))]
        constructor
        · simp only [List.length_set]; exact (hvlen m (by omega)).1
        · simp only [List.length_set]; exact (hvlen m (by omega)).2
      · obtain ⟨h1, h2⟩ := v.setbcs_getD_ne m i hcase
        rw [h1, h2]
        exact hvlen i hi
    · -- boundary endpoints for rows 0..m+1
      intro i hi0 hint
      rw [hs]
      rcases Nat.lt_or_ge i m with hlt | hge
      · -- untouched rows below m
        obtain ⟨h1, h2⟩ := v.setbcs_getD_ne m i (by omega)
        obtain ⟨h3, h4⟩ := u.rk4update_getD_ne m i (by omega)
        rw [← hv] at h3 h4
        rw [h1, h2, h3, h4]
        exact ihbc i (by omega) hint
      · rcases Nat.eq_or_lt_of_le hge with heq | hgt
        · -- row m: rewritten by _setbcs
          rw [← heq, (v.setbcs_getD_self_real m (by omega)),
            (v.setbcs_getD_self_imag m (by omega)), hvm_r, hvm_i, hvb,
            hlen_m.1, hlen_m.2]
          obtain ⟨el1, el2⟩ := set_endpoints_getD (u.real.getD m [])
            w.boundaries.1.1 w.boundaries.2.1 (by rw [hlen_m.1]; omega)
          obtain ⟨el3, el4⟩ := set_endpoints_getD (u.imag.getD m [])
            w.boundaries.1.2 w.boundaries.2.2 (by rw [hlen_m.2]; omega)
          rw [hlen_m.1] at el1 el2
          rw [hlen_m.2] at el3 el4
          exact ⟨el1, el3, el2, el4⟩
        · -- row m+1: endpoints inherited from row m
          have hi1 : i = m + 1 := by omega
          rw [hi1]
          obtain ⟨h1, h2⟩ := v.setbcs_getD_ne m (m+1) (by omega)
          rw [h1, h2, hrow1r, hrow1i]
          obtain ⟨b1, b2, b3, b4⟩ := ihbc m (by omega) (by omega)
          refine ⟨?_, ?_, ?_, ?_⟩
          · rw [u.rk4rowReal_getD_zero, b1]
          · rw [u.rk4rowImag_getD_zero, b2]
          · rw [u.rk4rowReal_getD_last _ _ hlen_m.1 hlen_m.2, b3]
          · rw [u.rk4rowImag_getD_last _ _ hlen_m.1 hlen_m.2, b4]

/-! ### Unpacking a successful construction -/

theorem getD_map_range {α : Type} (g : ℕ → α) (n i : ℕ) (d : α) (h : i < n) :
    ((List.range n).map g).getD i d = g i := by
  simp [List.getD_eq_getElem?_getD, List.getElem?_map, List.getElem?_range h]

/-- Everything a successful `mkWavefunction` guarantees about the
resulting state: derived counts, stored scalars, shapes of the field
arrays, and — when the grid has at least two points — the boundary
values pinned at the endpoints of row 0 by the constructor's
`_setbcs(0)`. -/
theorem mk_spec {junkR junkI : ℕ → ℕ → ℚ} {f : ℚ → ℚ × ℚ} {dx dt : ℚ}
    {xr tr : ℚ × ℚ} {b : (ℚ × ℚ) × (ℚ × ℚ)} {w : Wavefunction}
    (h : mkWavefunction junkR junkI f dx dt xr tr b = some w) :
    w.nt = (ntCount dt tr).toNat ∧ w.nx = (nxCount dx xr).toNat ∧
    1 ≤ w.nt ∧ 1 ≤ w.nx ∧
    w.boundaries = b ∧ w.dt = dt ∧ w.dx2 = dx ^ 2 ∧
    w.x = linspace xr.1 xr.2 w.nx ∧ w.t = linspace xr.1 xr.2 w.nt ∧
    w.real.length = w.nt ∧ w.imag.length = w.nt ∧
    (∀ i, i < w.nt →
      (w.real.getD i []).length = w.nx ∧ (w.imag.getD i []).length = w.nx) ∧
    (2 ≤ w.nx →
      (w.real.getD 0 []).getD 0 0 = b.1.1 ∧
      (w.imag.getD 0 []).getD 0 0 = b.1.2 ∧
      (w.real.getD 0 []).getD (w.nx - 1) 0 = b.2.1 ∧
      (w.imag.getD 0 []).getD (w.nx - 1) 0 = b.2.2) := by
  unfold mkWavefunction at h
  dsimp only at h
  split_ifs at h with h1 h2 h3
  set nx := (nxCount dx xr).toNat with hnxdef
  set nt := (ntCount dt tr).toNat with hntdef
  set row0R := ((linspace xr.1 xr.2 nx).map f).map Prod.fst with hrow0Rdef
  set row0I := ((linspace xr.1 xr.2 nx).map f).map Prod.snd with hrow0Idef
  set bigR := ((List.range nt).map (fun i => vecOf nx (junkR i))).set 0 row0R
    with hbigRdef
  set bigI := ((List.range nt).map (fun i => vecOf nx (junkI i))).set 0 row0I
    with hbigIdef
  set base : Wavefunction :=
    ⟨dx ^ 2, dt, dt / (2 * dx ^ 2), nx, nt, bigR, bigI,
      linspace xr.1 xr.2 nx, linspace xr.1 xr.2 nt, b⟩ with hbasedef
  obtain rfl : base.setbcs 0 = w := Option.some.inj h
  have hnt1 : 1 ≤ nt := by omega
  have hnx1 : 1 ≤ nx := by omega
  have hlbigR : bigR.length = nt := by simp [hbigRdef]
  have hlbigI : bigI.length = nt := by simp [hbigIdef]
  have hlrow0R : row0R.length = nx := by simp [hrow0Rdef, linspace]
  have hlrow0I : row0I.length = nx := by simp [hrow0Idef, linspace]
  have hbase_r0 : base.real.getD 0 [] = row0R := by
    rw [hbasedef, hbigRdef]
    exact getD_set_self _ _ (by simpa using hnt1)
  have hbase_i0 : base.imag.getD 0 [] = row0I := by
    rw [hbasedef, hbigIdef]
    exact getD_set_self _ _ (by simpa using hnt1)
  have hrowlen : ∀ i, i < nt →
      ((base.setbcs 0).real.getD i []).length = nx ∧
      ((base.setbcs 0).imag.getD i []).length = nx := by
    intro i hi
    by_cases hi0 : i = 0
    · subst hi0
      rw [base.setbcs_getD_self_real 0 (by simpa [hbasedef, hlbigR] using hnt1),
        base.setbcs_getD_self_imag 0 (by simpa [hbasedef, hlbigI] using hnt1),
        hbase_r0, hbase_i0]
      simp [hlrow0R, hlrow0I]
    · obtain ⟨e1, e2⟩ := base.setbcs_getD_ne 0 i hi0
      rw [e1, e2, hbasedef]
      have f1 : bigR.getD i [] = vecOf nx (junkR i) := by
        rw [hbigRdef, getD_set_ne _ _ (Ne.symm hi0)]
        exact getD_map_range _ _ _ _ hi
      have f2 : bigI.getD i [] = vecOf nx (junkI i) := by
        rw [hbigIdef, getD_set_ne _ _ (Ne.symm hi0)]
        exact getD_map_range _ _ _ _ hi
      rw [show (⟨dx ^ 2, dt, dt / (2 * dx ^ 2), nx, nt, bigR, bigI,
        linspace xr.1 xr.2 nx, linspace xr.1 xr.2 nt, b⟩ : Wavefunction).real
          = bigR from rfl,
        show (⟨dx ^ 2, dt, dt / (2 * dx ^ 2), nx, nt, bigR, bigI,
        linspace xr.1 xr.2 nx, linspace xr.1 xr.2 nt, b⟩ : Wavefunction).imag
          = bigI from rfl, f1, f2]
      simp
  refine ⟨rfl, rfl, hnt1, hnx1, rfl, rfl, rfl, rfl, rfl,
    by simp [hbasedef, hlbigR], by simp [hbasedef, hlbigI], hrowlen, ?_⟩
  intro hnx2
  rw [base.setbcs_getD_self_real 0 (by simpa [hbasedef, hlbigR] using hnt1),
    base.setbcs_getD_self_imag 0 (by simpa [hbasedef, hlbigI] using hnt1),
    hbase_r0, hbase_i0]
  obtain ⟨el1, el2⟩ := set_endpoints_getD row0R
    base.boundaries.1.1 base.boundaries.2.1 (by rw [hlrow0R]; exact hnx2)
  obtain ⟨el3, el4⟩ := set_endpoints_getD row0I
    base.boundaries.1.2 base.boundaries.2.2 (by rw [hlrow0I]; exact hnx2)
  refine ⟨?_, ?_, ?_, ?_⟩
  · simpa [hbasedef] using el1
  · simpa [hbasedef] using el3
  · simpa [hbasedef, hlrow0R] using el2
  · simpa [hbasedef, hlrow0I] using el4

/-! ### The code's stages equal the spec recurrence -/

theorem kreal0_eq_spec (w : Wavefunction) (ii : List ℚ) :
    w.kreal0 ii = w.specKreal0 ii := rfl

theorem kimag0_eq_spec (w : Wavefunction) (ri : List ℚ) :
    w.kimag0 ri = w.specKimag0 ri := rfl

/-- `imag[i] + dt * kreal[0] / 2` is `imag[i] + dt/2 * k_real[0]`. -/
theorem kreal1_eq_spec (w : Wavefunction) (ii : List ℚ) :
    w.kreal1 ii = w.specKreal1 ii := by
  unfold kreal1 specKreal1 stageRow
  have harg :
      vecOf ii.length (fun m => ii.getD m 0 + w.dt * (w.kreal0 ii).getD m 0 / 2) =
      vecOf ii.length (fun m => ii.getD m 0 + w.dt / 2 * (w.specKreal0 ii).getD m 0) := by
    apply vecOf_congr
    intro m hm
    rw [kreal0_eq_spec]
    ring
  rw [harg]

theorem kreal2_eq_spec (w : Wavefunction) (ii : List ℚ) :
    w.kreal2 ii = w.specKreal2 ii := by
  unfold kreal2 specKreal2 stageRow
  have harg :
      vecOf ii.length (fun m => ii.getD m 0 + w.dt * (w.kreal1 ii).getD m 0 / 2) =
      vecOf ii.length (fun m => ii.getD m 0 + w.dt / 2 * (w.specKreal1 ii).getD m 0) := by
    apply vecOf_congr
    intro m hm
    rw [kreal1_eq_spec]
    ring
  rw [harg]

theorem kreal3_eq_spec (w : Wavefunction) (ii : List ℚ) :
    w.kreal3 ii = w.specKreal3 ii := by
  unfold kreal3 specKreal3 stageRow
  rw [show (fun m => ii.getD m 0 + w.dt * (w.kreal2 ii).getD m 0) =
    (fun m => ii.getD m 0 + w.dt * (w.specKreal2 ii).getD m 0) by
      rw [kreal2_eq_spec]]

theorem kimag1_eq_spec (w : Wavefunction) (ri : List ℚ) :
    w.kimag1 ri = w.specKimag1 ri := by
  unfold kimag1 specKimag1 stageRow
  have harg :
      vecOf ri.length (fun m => ri.getD m 0 + w.dt * (w.kimag0 ri).getD m 0 / 2) =
      vecOf ri.length (fun m => ri.getD m 0 + w.dt / 2 * (w.specKimag0 ri).getD m 0) := by
    apply vecOf_congr
    intro m hm
    rw [kimag0_eq_spec]
    ring
  rw [harg]

theorem kimag2_eq_spec (w : Wavefunction) (ri : List ℚ) :
    w.kimag2 ri = w.specKimag2 ri := by
  unfold kimag2 specKimag2 stageRow
  have harg :
      vecOf ri.length (fun m => ri.getD m 0 + w.dt * (w.kimag1 ri).getD m 0 / 2) =
      vecOf ri.length (fun m => ri.getD m 0 + w.dt / 2 * (w.specKimag1 ri).getD m 0) := by
    apply vecOf_congr
    intro m hm
    rw [kimag1_eq_spec]
    ring
  rw [harg]

theorem kimag3_eq_spec (w : Wavefunction) (ri : List ℚ) :
    w.kimag3 ri = w.specKimag3 ri := by
  unfold kimag3 specKimag3 stageRow
  rw [show (fun m => ri.getD m 0 + w.dt * (w.kimag2 ri).getD m 0) =
    (fun m => ri.getD m 0 + w.dt * (w.specKimag2 ri).getD m 0) by
      rw [kimag2_eq_spec]]

/-- The code's weighted sum `dt*((1/6)k0 + (1/3)k1 + (1/3)k2 + (1/6)k3)`
equals the spec's `dt*(k0 + 2k1 + 2k2 + k3)/6`, stage by stage. -/
theorem rk4rowReal_eq_spec (w : Wavefunction) (ri ii : List ℚ) :
    w.rk4rowReal ri ii = w.specRowReal ri ii := by
  unfold rk4rowReal specRowReal
  apply vecOf_congr
  intro j hj
  rw [kreal0_eq_spec, kreal1_eq_spec, kreal2_eq_spec, kreal3_eq_spec]
  ring

theorem rk4rowImag_eq_spec (w : Wavefunction) (ri ii : List ℚ) :
    w.rk4rowImag ri ii = w.specRowImag ri ii := by
  unfold rk4rowImag specRowImag
  apply vecOf_congr
  intro j hj
  rw [kimag0_eq_spec, kimag1_eq_spec, kimag2_eq_spec, kimag3_eq_spec]
  ring

end Wavefunction
/-! ## Claim theorems -/

/-- C1: after `solve()` completes, every time row `i < nt` satisfies
`real[i][0] = boundaries[0].re`, `imag[i][0] = boundaries[0].im`,
`real[i][nx-1] = boundaries[1].re`, `imag[i][nx-1] = boundaries[1].im`
under the Dirichlet default; in particular with boundaries `(1+0j, 0+0j)`
every row — including the final row `nt-1` — has `real[i][0] = 1`.
The loop's `_setbcs(i)` pins rows `0 … nt-2`, and row `nt-1` inherits its
endpoint values from row `nt-2` because the Dirichlet derivative, and
hence every RK4 stage, vanishes at the endpoints. -/
theorem solve_pins_boundary_rows (junkR junkI : ℕ → ℕ → ℚ) (f : ℚ → ℚ × ℚ)
    (dx dt : ℚ) (xr tr : ℚ × ℚ) (b0 b1 : ℚ × ℚ) (w : Wavefunction)
    (hmk : mkWavefunction junkR junkI f dx dt xr tr (b0, b1) = some w)
    (hnx : 3 ≤ w.nx) :
    ∀ i, i < w.nt →
      (w.solve.real.getD i []).getD 0 0 = b0.1 ∧
      (w.solve.imag.getD i []).getD 0 0 = b0.2 ∧
      (w.solve.real.getD i []).getD (w.nx - 1) 0 = b1.1 ∧
      (w.solve.imag.getD i []).getD (w.nx - 1) 0 = b1.2 := by
  obtain ⟨-, -, hnt1, -, hb, -, -, -, -, hrl, hil, hrows, hbc⟩ := Wavefunction.mk_spec hmk
  obtain ⟨e1, e2, e3, e4⟩ := hbc (by omega)
  intro i hi
  obtain ⟨-, hbc2⟩ := w.solveUpTo_invariant hrl hil hrows (by omega)
    (by rw [hb]; exact e1) (by rw [hb]; exact e2)
    (by rw [hb]; exact e3) (by rw [hb]; exact e4)
    (w.nt - 1) (le_refl _)
  obtain ⟨a1, a2, a3, a4⟩ := hbc2 i (by omega) hi
  rw [hb] at a1 a2 a3 a4
  exact ⟨a1, a2, a3, a4⟩

/-- Witness for C1: with boundaries `(1+0j, 0+0j)`, `nt = 2`, the final
row `nt - 1 = 1` of the solved field still has `real[1][0] = 1`. -/
theorem solve_pins_boundary_rows_witness :
    (mkWavefunction (fun _ _ => 7) (fun _ _ => 7) (fun q => (q, 0)) (1/4) (1/2)
      (0, 1) (0, 1) ((1, 0), (0, 0)) = some wC1) ∧
    3 ≤ wC1.nx ∧ wC1.nt = 2 ∧
    (wC1.solve.real.getD 1 []).getD 0 0 = 1 := by
  have hmk : mkWavefunction (fun _ _ => 7) (fun _ _ => 7) (fun q => (q, 0))
      (1/4) (1/2) (0, 1) (0, 1) ((1, 0), (0, 0)) = some wC1 := by
    with_unfolding_all rfl
  have hnx4 : wC1.nx = 4 := by with_unfolding_all rfl
  have hnt2 : wC1.nt = 2 := by with_unfolding_all rfl
  have hnx : 3 ≤ wC1.nx := by omega
  exact ⟨hmk, hnx, hnt2,
    (solve_pins_boundary_rows _ _ _ _ _ _ _ (1, 0) (0, 0) wC1 hmk hnx 1 (by omega)).1⟩

/-- C2: each advance step computes the four Runge-Kutta stage vectors
exactly as the spec recurrence prescribes (stage 0 from the previous row,
stages 1–2 at half-step increments `dt/2`, stage 3 at a full-step
increment `dt`, all through the Dirichlet order-4 derivative), and writes
`real[i+1] = real[i] + dt*(k0 + 2k1 + 2k2 + k3)/6` (and symmetrically for
`imag`); the code's `dt*((1/6)k0 + (1/3)k1 + (1/3)k2 + (1/6)k3)` realizes
this same weighted sum. -/
theorem rk4_step_matches_spec_recurrence (w : Wavefunction) (i : ℕ)
    (hr : i + 1 < w.real.length) (hi2 : i + 1 < w.imag.length) :
    (w.rk4update i).real.getD (i+1) [] =
      w.specRowReal (w.real.getD i []) (w.imag.getD i []) ∧
    (w.rk4update i).imag.getD (i+1) [] =
      w.specRowImag (w.real.getD i []) (w.imag.getD i []) := by
  obtain ⟨e1, e2⟩ := w.rk4update_getD_self i hr hi2
  rw [e1, e2, Wavefunction.rk4rowReal_eq_spec, Wavefunction.rk4rowImag_eq_spec]
  exact ⟨rfl, rfl⟩

/-- Witness for C2 on the concrete state `wStep`. -/
theorem rk4_step_matches_spec_recurrence_witness :
    0 + 1 < wStep.real.length ∧
    (wStep.rk4update 0).real.getD 1 [] =
      wStep.specRowReal (wStep.real.getD 0 []) (wStep.imag.getD 0 []) ∧
    (wStep.rk4update 0).imag.getD 1 [] =
      wStep.specRowImag (wStep.real.getD 0 []) (wStep.imag.getD 0 []) := by
  have h := rk4_step_matches_spec_recurrence wStep 0
    (by with_unfolding_all decide) (by with_unfolding_all decide)
  exact ⟨by with_unfolding_all decide, h.1, h.2⟩

/-- C4: one iteration of the `solve` loop at index `i` writes the RK4
result into row `i+1` and then invokes `_setbcs` on the *current* row `i`
— not on row `i+1`: rows other than `i` and `i+1` are untouched, row `i`
changes at most at its two endpoints (which are set to the boundary
values), and row `i+1` is exactly the RK4 update, with no boundary
re-application. -/
theorem step_enforces_bcs_on_current_row (w : Wavefunction) (i : ℕ)
    (hr : i + 1 < w.real.length) (hi2 : i + 1 < w.imag.length)
    (hrow : (w.real.getD i []).length = w.nx)
    (hrow2 : (w.imag.getD i []).length = w.nx)
    (hnx : 2 ≤ w.nx) :
    (∀ j, j ≠ i → j ≠ i + 1 →
      (w.step i).real.getD j [] = w.real.getD j [] ∧
      (w.step i).imag.getD j [] = w.imag.getD j []) ∧
    (∀ m, 0 < m → m + 1 < w.nx →
      ((w.step i).real.getD i []).getD m 0 = (w.real.getD i []).getD m 0 ∧
      ((w.step i).imag.getD i []).getD m 0 = (w.imag.getD i []).getD m 0) ∧
    (((w.step i).real.getD i []).getD 0 0 = w.boundaries.1.1 ∧
      ((w.step i).imag.getD i []).getD 0 0 = w.boundaries.1.2 ∧
      ((w.step i).real.getD i []).getD (w.nx - 1) 0 = w.boundaries.2.1 ∧
      ((w.step i).imag.getD i []).getD (w.nx - 1) 0 = w.boundaries.2.2) ∧
    ((w.step i).real.getD (i+1) [] =
      w.rk4rowReal (w.real.getD i []) (w.imag.getD i []) ∧
     (w.step i).imag.getD (i+1) [] =
      w.rk4rowImag (w.real.getD i []) (w.imag.getD i [])) := by
  set v := w.rk4update i with hv
  have hstep : w.step i = v.setbcs i := rfl
  have hvm_r : v.real.getD i [] = w.real.getD i [] :=
    (w.rk4update_getD_ne i i (by omega)).1
  have hvm_i : v.imag.getD i [] = w.imag.getD i [] :=
    (w.rk4update_getD_ne i i (by omega)).2
  have hvb : v.boundaries = w.boundaries := by rw [hv]; rfl
  refine ⟨?_, ?_, ?_, ?_⟩
  · intro j hj hj1
    rw [hstep]
    obtain ⟨e1, e2⟩ := v.setbcs_getD_ne i j hj
    obtain ⟨e3, e4⟩ := w.rk4update_getD_ne i j hj1
    rw [← hv] at e3 e4
    rw [e1, e2, e3, e4]
    exact ⟨rfl, rfl⟩
  · intro m hm hmx
    rw [hstep,
      v.setbcs_getD_self_real i (by rw [hv, w.rk4update_real_length]; omega),
      v.setbcs_getD_self_imag i (by rw [hv, w.rk4update_imag_length]; omega),
      hvm_r, hvm_i, hrow, hrow2]
    constructor
    · rw [getD_set_ne _ _ (by omega), getD_set_ne _ _ (by omega)]
    · rw [getD_set_ne _ _ (by omega), getD_set_ne _ _ (by omega)]
  · rw [hstep,
      v.setbcs_getD_self_real i (by rw [hv, w.rk4update_real_length]; omega),
      v.setbcs_getD_self_imag i (by rw [hv, w.rk4update_imag_length]; omega),
      hvm_r, hvm_i, hvb, hrow, hrow2]
    obtain ⟨el1, el2⟩ := Wavefunction.set_endpoints_getD (w.real.getD i [])
      w.boundaries.1.1 w.boundaries.2.1 (by omega)
    obtain ⟨el3, el4⟩ := Wavefunction.set_endpoints_getD (w.imag.getD i [])
      w.boundaries.1.2 w.boundaries.2.2 (by omega)
    rw [hrow] at el1 el2
    rw [hrow2] at el3 el4
    exact ⟨el1, el3, el2, el4⟩
  · rw [hstep]
    obtain ⟨e1, e2⟩ := v.setbcs_getD_ne i (i+1) (by omega)
    obtain ⟨e3, e4⟩ := w.rk4update_getD_self i hr hi2
    rw [← hv] at e3 e4
    rw [e1, e2, e3, e4]
    exact ⟨rfl, rfl⟩

/-- Witness for C4 on `wStep` (boundaries `(5+6j, 7+8j)`): row 1 is the
raw RK4 row while row 0 gets the boundary values. -/
theorem step_enforces_bcs_on_current_row_witness :
    0 + 1 < wStep.real.length ∧ 2 ≤ wStep.nx ∧
    ((wStep.step 0).real.getD 0 []).getD 0 0 = 5 ∧
    ((wStep.step 0).real.getD 0 []).getD (wStep.nx - 1) 0 = 7 ∧
    (wStep.step 0).real.getD 1 [] =
      wStep.rk4rowReal (wStep.real.getD 0 []) (wStep.imag.getD 0 []) := by
  have h := step_enforces_bcs_on_current_row wStep 0
    (by with_unfolding_all decide) (by with_unfolding_all decide)
    (by with_unfolding_all decide) (by with_unfolding_all decide)
    (by with_unfolding_all decide)
  exact ⟨by with_unfolding_all decide, by with_unfolding_all decide,
    h.2.2.1.1, h.2.2.1.2.2.1, h.2.2.2.1⟩

/-- C6: under the Dirichlet default a single RK4 advance step leaves the
endpoint entries of the field unchanged *before* any boundary
re-application: the derivative operator returns `0` at indices `0` and
`nx-1`, so every stage vector vanishes there and row `i+1` keeps row
`i`'s endpoint values. -/
theorem rk4update_preserves_endpoints (w : Wavefunction) (i : ℕ)
    (hr : i + 1 < w.real.length) (hi2 : i + 1 < w.imag.length)
    (hrow : (w.real.getD i []).length = w.nx)
    (hrow2 : (w.imag.getD i []).length = w.nx) :
    ((w.rk4update i).real.getD (i+1) []).getD 0 0 =
      (w.real.getD i []).getD 0 0 ∧
    ((w.rk4update i).imag.getD (i+1) []).getD 0 0 =
      (w.imag.getD i []).getD 0 0 ∧
    ((w.rk4update i).real.getD (i+1) []).getD (w.nx - 1) 0 =
      (w.real.getD i []).getD (w.nx - 1) 0 ∧
    ((w.rk4update i).imag.getD (i+1) []).getD (w.nx - 1) 0 =
      (w.imag.getD i []).getD (w.nx - 1) 0 := by
  obtain ⟨e1, e2⟩ := w.rk4update_getD_self i hr hi2
  rw [e1, e2]
  exact ⟨w.rk4rowReal_getD_zero _ _, w.rk4rowImag_getD_zero _ _,
    w.rk4rowReal_getD_last _ _ hrow hrow2, w.rk4rowImag_getD_last _ _ hrow hrow2⟩

/-- Witness for C6 on `wStep`: before `_setbcs`, row 1 keeps row 0's
endpoint values (`1` and `3` for the real part). -/
theorem rk4update_preserves_endpoints_witness :
    0 + 1 < wStep.real.length ∧
    ((wStep.rk4update 0).real.getD 1 []).getD 0 0 =
      (wStep.real.getD 0 []).getD 0 0 ∧
    ((wStep.rk4update 0).real.getD 1 []).getD (wStep.nx - 1) 0 =
      (wStep.real.getD 0 []).getD (wStep.nx - 1) 0 ∧
    (wStep.real.getD 0 []).getD 0 0 = 1 := by
  have h := rk4update_preserves_endpoints wStep 0
    (by with_unfolding_all decide) (by with_unfolding_all decide)
    (by with_unfolding_all decide) (by with_unfolding_all decide)
  exact ⟨by with_unfolding_all decide, h.1, h.2.2.1, by with_unfolding_all rfl⟩

namespace Wavefunction

/-! ### Branch evaluation of the order-4 Dirichlet `df` buffer -/

/-- `df[0] = 0`, `df[-1] = 0` under Dirichlet. -/
theorem derivWrites_boundary (psi : List ℚ) (junk : ℕ → ℚ) (j : ℕ)
    (h : j = 0 ∨ j = psi.length - 1) :
    derivWrites 4 true psi junk j = 0 := by
  unfold derivWrites
  simp only [reduceIte]
  rw [if_pos h]

/-- The 5-point interior branch. -/
theorem derivWrites_five (psi : List ℚ) (junk : ℕ → ℚ) (j : ℕ)
    (h0 : ¬(j = 0 ∨ j = psi.length - 1)) (hn2 : ¬(j = psi.length - 2))
    (h1 : ¬(j = 1)) (hint : 2 ≤ j ∧ j + 2 < psi.length) :
    derivWrites 4 true psi junk j =
      (-(psi.getD (j-2) 0) + 16 * psi.getD (j-1) 0 - 30 * psi.getD j 0
        + 16 * psi.getD (j+1) 0 - psi.getD (j+2) 0) / 12 := by
  unfold derivWrites
  simp only [reduceIte]
  rw [if_neg h0, if_neg (by decide : ¬((4:ℕ) = 2)), if_neg hn2, if_neg h1,
    if_pos hint]

/-- The `df[1]` 3-point fallback. -/
theorem derivWrites_one (psi : List ℚ) (junk : ℕ → ℚ) (j : ℕ)
    (h0 : ¬(j = 0 ∨ j = psi.length - 1)) (hn2 : ¬(j = psi.length - 2))
    (h1 : j = 1) :
    derivWrites 4 true psi junk j =
      psi.getD 0 0 - 2 * psi.getD 1 0 + psi.getD 2 0 := by
  unfold derivWrites
  simp only [reduceIte]
  rw [if_neg h0, if_neg (by decide : ¬((4:ℕ) = 2)), if_neg hn2, if_pos h1]

/-- The `df[-2]` 3-point fallback. -/
theorem derivWrites_penult (psi : List ℚ) (junk : ℕ → ℚ) (j : ℕ)
    (h0 : ¬(j = 0 ∨ j = psi.length - 1)) (hn2 : j = psi.length - 2) :
    derivWrites 4 true psi junk j =
      psi.getD (psi.length - 1) 0 - 2 * psi.getD (psi.length - 2) 0
        + psi.getD (psi.length - 3) 0 := by
  unfold derivWrites
  simp only [reduceIte]
  rw [if_neg h0, if_neg (by decide : ¬((4:ℕ) = 2)), if_pos hn2]

/-- For the order-4 Dirichlet combination every buffer cell `j < n` is
assigned by some statement, so the result does not depend on the
uninitialized contents. -/
theorem derivWrites_junk_irrelevant (psi : List ℚ) (junk : ℕ → ℚ) (j : ℕ)
    (hj : j < psi.length) :
    derivWrites 4 true psi junk j = derivWrites 4 true psi (fun _ => 0) j := by
  by_cases hb : j = 0 ∨ j = psi.length - 1
  · rw [derivWrites_boundary psi junk j hb, derivWrites_boundary psi _ j hb]
  · by_cases hn2 : j = psi.length - 2
    · rw [derivWrites_penult psi junk j hb hn2, derivWrites_penult psi _ j hb hn2]
    · by_cases h1 : j = 1
      · rw [derivWrites_one psi junk j hb hn2 h1, derivWrites_one psi _ j hb hn2 h1]
      · have hint : 2 ≤ j ∧ j + 2 < psi.length := by omega
        rw [derivWrites_five psi junk j hb hn2 h1 hint,
          derivWrites_five psi _ j hb hn2 h1 hint]

end Wavefunction

/-- C3 (code bug): the time-step count `nt` does follow
`int(round((trange_max - trange_min)/dt))`, but the stored time axis is
built from `xrange`, not `trange` — the source line is
`self.t = np.linspace(xrange[0], xrange[1], self.nt)`.  With
`xrange = (0,1)`, `trange = (0,1/5)`, `dt = 1/10`: `nt = 2`, yet
`t = [0, 1]` (spanning `xrange`), while a `trange`-spanning axis would be
`linspace 0 (1/5) 2 = [0, 1/5] ≠ [0, 1]`. -/
theorem time_axis_built_from_xrange :
    (mkWavefunction (fun _ _ => 0) (fun _ _ => 0) (fun q => (q, 0)) (1/2) (1/10)
        (0, 1) (0, 1/5) ((0, 0), (0, 0))).map Wavefunction.nt = some 2 ∧
    ntCount (1/10) (0, 1/5) = 2 ∧
    (mkWavefunction (fun _ _ => 0) (fun _ _ => 0) (fun q => (q, 0)) (1/2) (1/10)
        (0, 1) (0, 1/5) ((0, 0), (0, 0))).map Wavefunction.t = some [0, 1] ∧
    linspace 0 (1/5) 2 = [0, 1/5] ∧
    ([(0:ℚ), 1] ≠ [(0:ℚ), 1/5]) := by
  refine ⟨by with_unfolding_all rfl, by with_unfolding_all rfl,
    by with_unfolding_all rfl, by with_unfolding_all rfl,
    by with_unfolding_all decide⟩

/-- C5: with `order = 4` and `dirichlet = true` (the defaults), the
derivative returns, for interior indices `j ∈ [2, nx-3]`, the 5-point
value `(-ψ[j-2] + 16ψ[j-1] - 30ψ[j] + 16ψ[j+1] - ψ[j+2])/12` divided by
`dx²`; at `j = 1` and `j = nx-2` the 3-point value divided by `dx²`;
and `0` at `j = 0` and `j = nx-1` — every component divided by `dx²`. -/
theorem deriv_order4_dirichlet_values (w : Wavefunction) (psi : List ℚ)
    (h5 : 5 ≤ psi.length) :
    (∀ j, 2 ≤ j → j + 3 ≤ psi.length →
      (w.deriv psi).getD j 0 =
        ((-(psi.getD (j-2) 0) + 16 * psi.getD (j-1) 0 - 30 * psi.getD j 0
          + 16 * psi.getD (j+1) 0 - psi.getD (j+2) 0) / 12) / w.dx2) ∧
    ((w.deriv psi).getD 1 0 =
      (psi.getD 0 0 - 2 * psi.getD 1 0 + psi.getD 2 0) / w.dx2) ∧
    ((w.deriv psi).getD (psi.length - 2) 0 =
      (psi.getD (psi.length - 1) 0 - 2 * psi.getD (psi.length - 2) 0
        + psi.getD (psi.length - 3) 0) / w.dx2) ∧
    ((w.deriv psi).getD 0 0 = 0) ∧
    ((w.deriv psi).getD (psi.length - 1) 0 = 0) := by
  refine ⟨?_, ?_, ?_, w.deriv_getD_zero psi, w.deriv_getD_last psi rfl⟩
  · intro j hj2 hj3
    rw [Wavefunction.deriv, vecOf_getD _ _ _ _ (by omega),
      Wavefunction.derivWrites_five psi _ j (by omega) (by omega) (by omega)
        (by omega)]
  · rw [Wavefunction.deriv, vecOf_getD _ _ _ _ (by omega),
      Wavefunction.derivWrites_one psi _ 1 (by omega) (by omega) rfl]
  · rw [Wavefunction.deriv, vecOf_getD _ _ _ _ (by omega),
      Wavefunction.derivWrites_penult psi _ (psi.length - 2) (by omega) rfl]

/-- Witness for C5 on `ψ = x²` samples `[1, 4, 9, 16, 25]` with
`dx2 = 1`: the 5-point and 3-point formulas both give the analytic value
`2`, and the Dirichlet endpoints give `0`. -/
theorem deriv_order4_dirichlet_values_witness :
    5 ≤ ([1, 4, 9, 16, 25] : List ℚ).length ∧
    (wStep.deriv [1, 4, 9, 16, 25]).getD 2 0 = 2 ∧
    (wStep.deriv [1, 4, 9, 16, 25]).getD 1 0 = 2 ∧
    (wStep.deriv [1, 4, 9, 16, 25]).getD 0 0 = 0 ∧
    (wStep.deriv [1, 4, 9, 16, 25]).getD
      (([1, 4, 9, 16, 25] : List ℚ).length - 1) 0 = 0 := by
  have h := deriv_order4_dirichlet_values wStep ([1, 4, 9, 16, 25] : List ℚ)
    (by decide)
  refine ⟨by decide, ?_, ?_, h.2.2.2.1, h.2.2.2.2⟩
  · rw [h.1 2 (by omega) (by decide)]
    norm_num [wStep]
  · rw [h.2.1]
    norm_num [wStep]

/-- C7 as stated is false: with a degenerate `trange = (0, 0)` (and the
default `dx`, `dt`) the derived count is `nt = 0`, and construction does
*not* complete normally: `self.real[0] = …` is an out-of-bounds write
into an array with zero rows (an `IndexError`; `none` in this model). -/
theorem degenerate_trange_construction_fails :
    ntCount (1/10000) (0, 0) = 0 ∧
    mkWavefunction (fun _ _ => 0) (fun _ _ => 0) (fun q => (q, 0)) (1/50)
      (1/10000) (0, 1) (0, 0) ((0, 0), (0, 0)) = none :=
  ⟨by with_unfolding_all rfl, by with_unfolding_all rfl⟩

/-- C7 amended: construction performs no explicit runtime validation of
`dx`, `dt`, `xrange`, `trange`, and the derived counts are exactly the
rounded ratios (which may silently be as small as `1`); however, a run
whose derived `nt` or `nx` is zero or negative does not complete
normally — it dies with an allocation/index error (modelled `none`).
Construction completes exactly when both rounded counts are `≥ 1`. -/
theorem mk_completes_iff_positive_counts (junkR junkI : ℕ → ℕ → ℚ)
    (f : ℚ → ℚ × ℚ) (dx dt : ℚ) (xr tr : ℚ × ℚ) (b : (ℚ × ℚ) × (ℚ × ℚ)) :
    ((mkWavefunction junkR junkI f dx dt xr tr b).isSome = true ↔
      1 ≤ ntCount dt tr ∧ 1 ≤ nxCount dx xr) ∧
    ∀ w, mkWavefunction junkR junkI f dx dt xr tr b = some w →
      w.nt = (ntCount dt tr).toNat ∧ w.nx = (nxCount dx xr).toNat := by
  constructor
  · unfold mkWavefunction
    dsimp only
    split_ifs with h1 h2 h3
    · simp only [Option.isSome_none, Bool.false_eq_true, false_iff]
      omega
    · simp only [Option.isSome_none, Bool.false_eq_true, false_iff]
      omega
    · simp only [Option.isSome_none, Bool.false_eq_true, false_iff]
      omega
    · simp only [Option.isSome_some, true_iff]
      omega
  · intro w hw
    obtain ⟨e1, e2, -⟩ := Wavefunction.mk_spec hw
    exact ⟨e1, e2⟩

/-- Witness for C7 (amended): a completing run (`nt = 2`, `nx = 4`) whose
stored counts equal the rounded ratios. -/
theorem mk_completes_iff_positive_counts_witness :
    ((mkWavefunction (fun _ _ => 7) (fun _ _ => 7) (fun q => (q, 0)) (1/4) (1/2)
        (0, 1) (0, 1) ((1, 0), (0, 0))).isSome = true ↔
      1 ≤ ntCount (1/2) (0, 1) ∧ 1 ≤ nxCount (1/4) (0, 1)) ∧
    wC1.nt = (ntCount (1/2) (0, 1)).toNat ∧
    (ntCount (1/2) (0, 1)).toNat = 2 := by
  have h := mk_completes_iff_positive_counts (fun _ _ => 7) (fun _ _ => 7)
    (fun q => (q, 0)) (1/4) (1/2) (0, 1) (0, 1) ((1, 0), (0, 0))
  exact ⟨h.1, (h.2 wC1 (by with_unfolding_all rfl)).1,
    by with_unfolding_all rfl⟩

/-- C8: `prob(i)` returns the sequence of `nx` values
`real[i][j]² + imag[i][j]²`, each non-negative.  In this embedding
`prob` is a pure function of the state: the source builds a fresh array
from `real[i] ** 2 + imag[i] ** 2` and assigns into nothing. -/
theorem prob_values_nonneg (w : Wavefunction) (i : ℕ) (_hi : i < w.nt) :
    (w.prob i).length = w.nx ∧
    ∀ j, j < w.nx →
      (w.prob i).getD j 0 =
        ((w.real.getD i []).getD j 0) ^ 2 + ((w.imag.getD i []).getD j 0) ^ 2 ∧
      0 ≤ (w.prob i).getD j 0 := by
  refine ⟨by simp [Wavefunction.prob], fun j hj => ?_⟩
  rw [Wavefunction.prob, vecOf_getD _ _ _ _ hj]
  exact ⟨rfl, by positivity⟩

/-- Witness for C8 on `wStep`: `prob 0` at index 1 is `2² + 1² = 5 ≥ 0`. -/
theorem prob_values_nonneg_witness :
    0 < wStep.nt ∧ 1 < wStep.nx ∧
    (wStep.prob 0).getD 1 0 = 5 ∧ 0 ≤ (wStep.prob 0).getD 1 0 := by
  have h := prob_values_nonneg wStep 0 (by decide)
  have e := h.2 1 (by decide)
  refine ⟨by decide, by decide, ?_, e.2⟩
  rw [e.1]
  norm_num [wStep]

/-- C9: `deriv` is pure with respect to its input: for every
order/dirichlet combination (and arbitrary uninitialized-buffer
contents) the state-pair model of the body returns `psi` unchanged —
every assignment in the source writes into the fresh `np.empty_like`
buffer.  Moreover the buffer the model computes for the order-4
Dirichlet combination is exactly `deriv psi`, independently of the
junk contents. -/
theorem deriv_pure_in_input (w : Wavefunction) (order : ℕ) (dirichlet : Bool)
    (junk : ℕ → ℚ) (psi : List ℚ) :
    (w.derivRun order dirichlet junk psi).2 = psi ∧
    (w.derivRun 4 true junk psi).1 = w.deriv psi := by
  constructor
  · rfl
  · unfold Wavefunction.derivRun Wavefunction.deriv
    dsimp only
    apply vecOf_congr
    intro j hj
    rw [Wavefunction.derivWrites_junk_irrelevant psi junk j hj]

/-- C10: for `nx ≥ 2` the stored coordinates satisfy
`x[k] = xrange[0] + k*(xrange[1]-xrange[0])/(nx-1)`, so the actual grid
spacing is `(xrange[1]-xrange[0])/(nx-1)` — in general different from
the configured step `dx`, whose square is the divisor `deriv` uses
(`dx2 = dx²`).  At the defaults (`dx = 1/50`, `xrange = (0,1)`,
`nx = 50`) the spacing is `1/49`, not `1/50`. -/
theorem x_spacing_differs_from_dx (junkR junkI : ℕ → ℕ → ℚ) (f : ℚ → ℚ × ℚ)
    (dx dt : ℚ) (xr tr : ℚ × ℚ) (b : (ℚ × ℚ) × (ℚ × ℚ)) (w : Wavefunction)
    (hmk : mkWavefunction junkR junkI f dx dt xr tr b = some w)
    (hnx : 2 ≤ w.nx) :
    (∀ k, k < w.nx →
      w.x.getD k 0 = xr.1 + (k : ℚ) * (xr.2 - xr.1) / ((w.nx : ℚ) - 1)) ∧
    (w.x.getD 1 0 - w.x.getD 0 0 = (xr.2 - xr.1) / ((w.nx : ℚ) - 1)) ∧
    w.dx2 = dx ^ 2 := by
  obtain ⟨-, -, -, -, -, -, hdx2, hx, -⟩ := Wavefunction.mk_spec hmk
  have hform : ∀ k, k < w.nx →
      w.x.getD k 0 = xr.1 + (k : ℚ) * (xr.2 - xr.1) / ((w.nx : ℚ) - 1) := by
    intro k hk
    rw [hx, linspace, vecOf_getD _ _ _ _ hk]
  refine ⟨hform, ?_, hdx2⟩
  rw [hform 1 (by omega), hform 0 (by omega)]
  push_cast
  ring

/-- Witness for C10 at the default spatial configuration: `nx = 50`,
spacing `1/49`, configured `dx = 1/50`, and `1/49 ≠ 1/50`. -/
theorem x_spacing_differs_from_dx_witness :
    (mkWavefunction (fun _ _ => 0) (fun _ _ => 0) (fun q => (q, 0)) (1/50) (1/2)
        (0, 1) (0, 1) ((0, 0), (0, 0)) = some wC10) ∧
    2 ≤ wC10.nx ∧ wC10.nx = 50 ∧
    wC10.x.getD 1 0 - wC10.x.getD 0 0 = (1 - 0) / ((wC10.nx : ℚ) - 1) ∧
    (1 - 0) / ((wC10.nx : ℚ) - 1) = 1/49 ∧
    ((1:ℚ)/49 ≠ 1/50) ∧ wC10.dx2 = (1/50) ^ 2 := by
  have hmk : mkWavefunction (fun _ _ => 0) (fun _ _ => 0) (fun q => (q, 0))
      (1/50) (1/2) (0, 1) (0, 1) ((0, 0), (0, 0)) = some wC10 := by
    with_unfolding_all rfl
  have hnx50 : wC10.nx = 50 := by with_unfolding_all rfl
  have h := x_spacing_differs_from_dx _ _ _ _ _ _ _ _ wC10 hmk (by omega)
  refine ⟨hmk, by omega, hnx50, h.2.1, ?_, by norm_num, h.2.2⟩
  rw [hnx50]
  norm_num
